import Mathlib

/-!
# Verification of `DiverseSelector/distance.py`

A shallow embedding of the metric-calculation module of DiverseSelector
(`src/DiverseSelector/distance.py`) and proofs about it.

Modelling conventions:
* numpy feature vectors become `List ℚ`; feature matrices become `List (List ℚ)`.
  Python integer/float arithmetic on these values is exact here (`ℚ`), except for
  the square root in `euc_bit`, which is modelled with `Real.sqrt`.
* Python indexing `x[i]` on an in-bounds index becomes `List.getD i` with an
  irrelevant default; loops become folds or maps over `List.range`.
* Fallible operations (`raise`) return `Except PyError`.
-/

namespace DiverseSelector

/-- Python exceptions raised (directly or by library calls) in `distance.py`. -/
inductive PyError where
  | valueError (msg : String) : PyError
  | typeError (msg : String) : PyError
  | indexError (msg : String) : PyError
  deriving DecidableEq, Repr

/-- Row `i` of a feature matrix: the Python expression `x[i]` (in-bounds in all
executions modelled here; out-of-range access never occurs on matrix rows). -/
def row (x : List (List ℚ)) (i : ℕ) : List ℚ :=
  x.getD i []

/-- The Python expression `np.count_nonzero(a)`: the number of nonzero entries. -/
def count_nonzero (a : List ℚ) : ℕ :=
  a.countP (fun v => decide (v ≠ 0))

/-- The intersection loop shared by `euc_bit` and `bit_tanimoto`:
`c = 0; for idx, _ in enumerate(a): if a[idx] == b[idx] and a[idx] != 0: c += 1`.
The loop runs over the indices of `a`; it is faithful to the Python whenever
`a.length ≤ b.length` (otherwise Python raises `IndexError`, see `euc_bit_run`). -/
def c11 (a b : List ℚ) : ℕ :=
  (List.range a.length).countP
    (fun idx => decide (a.getD idx 0 = b.getD idx 0 ∧ a.getD idx 0 ≠ 0))

/-- The numpy expression `sum(a * b)`: elementwise product, then sum. -/
def dotL (a b : List ℚ) : ℚ :=
  ((a.zip b).map (fun p => p.1 * p.2)).sum

/-- `euc_bit(a, b)`: `(a_feat + b_feat - (2 * c)) ** 0.5` where
`a_feat = np.count_nonzero(a)`, `b_feat = np.count_nonzero(b)` and `c` is the
intersection count `c11`. The base is a nonnegative integer, so `** 0.5` is
the real square root. -/
noncomputable def euc_bit (a b : List ℚ) : ℝ :=
  Real.sqrt ((count_nonzero a : ℝ) + (count_nonzero b : ℝ) - 2 * (c11 a b : ℝ))

/-- `tanimoto(a, b)`:
`(sum(a * b)) / ((sum(a ** 2)) + (sum(b ** 2)) - (sum(a * b)))`. -/
def tanimoto (a b : List ℚ) : ℚ :=
  dotL a b / ((a.map (fun v => v ^ 2)).sum + (b.map (fun v => v ^ 2)).sum - dotL a b)

/-- `bit_tanimoto(a, b)`: `c / (a_feat + b_feat - c)` with the same counts as
`euc_bit`. Arithmetic is done after casting the integer counts to ℚ, matching
Python's exact integer arithmetic followed by true division. -/
def bit_tanimoto (a b : List ℚ) : ℚ :=
  (c11 a b : ℚ) / ((count_nonzero a : ℚ) + (count_nonzero b : ℚ) - (c11 a b : ℚ))

/-- `modified_tanimoto(a, b)`: the Bernoulli-corrected Tanimoto coefficient,
translated line by line from the source (`n = len(a)`, `n_11 = sum(a * b)`,
`n_00 = sum((1 - a) * (1 - b))`, the two guarded branches, `p`, and `mt`). -/
def modified_tanimoto (a b : List ℚ) : ℚ :=
  let n : ℚ := (a.length : ℚ)
  let n_11 : ℚ := dotL a b
  let n_00 : ℚ := dotL (a.map (fun v => 1 - v)) (b.map (fun v => 1 - v))
  let t_1 : ℚ := if n_00 = n then 1 else n_11 / (n - n_00)
  let t_0 : ℚ := if n_11 = n then 1 else n_00 / (n - n_11)
  let p : ℚ := ((n - n_00) + n_11) / (2 * n)
  (((2 - p) / 3) * t_1) + (((1 + p) / 3) * t_0)

/-- Python's `range(a, b)`. -/
def pyRange2 (a b : ℕ) : List ℕ :=
  List.range' a (b - a)

/-- The condensed pair list accumulated by `pairwise_similarity_bit`:
`pair_simi = []; for i in range(0, size): for j in range(i + 1, size):
pair_simi.append(metric(feature[i], feature[j]))`. -/
def pair_simi (feature : List (List ℚ)) (metric : List ℚ → List ℚ → ℚ) : List ℚ :=
  (List.range feature.length).flatMap
    (fun i => (pyRange2 (i + 1) feature.length).map
      (fun j => metric (row feature i) (row feature j)))

/-- Index of the unordered pair `(i, j)` (with `i < j`) in a condensed pair
vector over `n` items, in the row-major order produced by the loops above:
all pairs `(0, _)` first, then `(1, _)`, and so on. -/
def cIdx (n i j : ℕ) : ℕ :=
  i * (n - 1) - i * (i - 1) / 2 + (j - i - 1)

/-- The call `scipy.spatial.distance.squareform(v)`, which expands a condensed
pair vector `v` of length `n * (n - 1) / 2` into an `n × n` symmetric matrix
with zero diagonal (scipy recovers `n` from `len(v)`; here it is passed
explicitly by the caller, with the same value). -/
def squareform (v : List ℚ) (n : ℕ) : List (List ℚ) :=
  (List.range n).map (fun i => (List.range n).map (fun j =>
    if i < j then v.getD (cIdx n i j) 0
    else if j < i then v.getD (cIdx n j i) 0
    else 0))

/-- The call `np.identity(n)`. -/
def np_identity (n : ℕ) : List (List ℚ) :=
  (List.range n).map (fun i => (List.range n).map (fun j => if i = j then (1 : ℚ) else 0))

/-- Elementwise matrix addition, as used in `squareform(pair_simi) + np.identity(size)`. -/
def matAdd (m1 m2 : List (List ℚ)) : List (List ℚ) :=
  List.zipWith (List.zipWith (· + ·)) m1 m2

/-- `pairwise_similarity_bit(feature, metric)`:
`pair_coeff = squareform(pair_simi) + np.identity(size)` with `size = len(feature)`. -/
def pairwise_similarity_bit (feature : List (List ℚ)) (metric : List ℚ → List ℚ → ℚ) :
    List (List ℚ) :=
  matAdd (squareform (pair_simi feature metric) feature.length)
    (np_identity feature.length)

/-- Entry `M[i][j]` of a matrix given as a list of rows. -/
def mEntry (M : List (List ℚ)) (i j : ℕ) : ℚ :=
  (M.getD i []).getD j 0

/-- The built-in metric names of `compute_distance_matrix`. -/
def built_in_metrics : List String :=
  ["tanimoto", "modified_tanimoto"]

/-- `compute_distance_matrix(features, metric, n_jobs, force_all_finite, **kwargs)`.

The imported global `sklearn_supported_metrics` (defined in
`DiverseSelector/utils.py`, which is not part of the sources embedded here) and
the external backend `sklearn.metrics.pairwise_distances` are passed as explicit
parameters `sklearn_supported_metrics` and `pairwise_distances`; `kwargs` is
omitted (it is only forwarded verbatim to the backend).

The built-in branch of the source is
`dist = function_dict[metric](features)`, which applies the selected scalar
metric — `tanimoto` or `modified_tanimoto`, both functions of two positional
parameters `a, b` — to the single argument `features`. In Python this raises
`TypeError` before any matrix is produced, so that branch is embedded as the
corresponding error value. -/
def compute_distance_matrix
    (pairwise_distances : List (List ℚ) → String → ℤ → Bool → List (List ℝ))
    (sklearn_supported_metrics : List String)
    (features : List (List ℚ)) (metric : String)
    (n_jobs : ℤ) (force_all_finite : Bool) :
    Except PyError (List (List ℝ)) :=
  if metric ∈ sklearn_supported_metrics then
    Except.ok (pairwise_distances features metric n_jobs force_all_finite)
  else if metric ∈ built_in_metrics then
    Except.error (PyError.typeError
      (metric ++ "() missing 1 required positional argument"))
  else
    Except.error (PyError.valueError
      ("Metric " ++ metric ++ " is not supported by the library."))

/-- Modelled from the spec: the set `sklearn_supported_metrics` imported from
`DiverseSelector/utils.py` (a file that is not among the embedded sources).
The spec describes it as "any name supported by the general-purpose backend's
metric registry (e.g., euclidean, cosine, manhattan, and other standard
distance names)"; this concrete value is used only to instantiate witnesses. -/
def sklearn_supported_metrics_model : List String :=
  ["euclidean", "cosine", "manhattan", "cityblock", "l1", "l2"]

/-- State of the inner loop of `nearest_average_tanimoto`:
`short` (running shortest distance), `a`, `b` (indices of the recorded pair). -/
structure NatState where
  short : ℝ
  a : ℕ
  b : ℕ

/-- One iteration of the inner loop of `nearest_average_tanimoto`:
`if euc_bit(x[idx], x[jdx]) < short and idx != jdx:
  short = euc_bit(x[idx], x[jdx]); a = idx; b = jdx`. -/
noncomputable def natStep (x : List (List ℚ)) (idx : ℕ) (s : NatState) (jdx : ℕ) : NatState :=
  if euc_bit (row x idx) (row x jdx) < s.short ∧ idx ≠ jdx then
    ⟨euc_bit (row x idx) (row x jdx), idx, jdx⟩
  else s

/-- The inner loop of `nearest_average_tanimoto` for a fixed `idx`:
`short = 100; a = 0; b = 0; for jdx, _ in enumerate(x): ...`. -/
noncomputable def natInner (x : List (List ℚ)) (idx : ℕ) : NatState :=
  (List.range x.length).foldl (natStep x idx) ⟨100, 0, 0⟩

/-- The value appended to `tani` for a given `idx`:
`tani.append(bit_tanimoto(x[a], x[b]))`. -/
noncomputable def natContrib (x : List (List ℚ)) (idx : ℕ) : ℚ :=
  bit_tanimoto (row x (natInner x idx).a) (row x (natInner x idx).b)

/-- `nearest_average_tanimoto(x)`: builds the list `tani` (one entry per row)
and returns `np.average(tani)`, i.e. the sum divided by the length. -/
noncomputable def nearest_average_tanimoto (x : List (List ℚ)) : ℚ :=
  let tani := (List.range x.length).map (natContrib x)
  tani.sum / (tani.length : ℚ)

/-- `euc_bit` as executed by Python: iterating `for idx, _ in enumerate(a)` and
reading `b[idx]` raises `IndexError` as soon as `len(b) < len(a)`; otherwise the
loop completes and the distance is returned. -/
noncomputable def euc_bit_run (a b : List ℚ) : Except PyError ℝ :=
  if a.length ≤ b.length then Except.ok (euc_bit a b)
  else Except.error (PyError.indexError "index out of bounds")

/-! ## Helper lemmas -/

theorem getD_map_range {α : Type} (g : ℕ → α) (d : α) {i n : ℕ} (h : i < n) :
    ((List.range n).map g).getD i d = g i := by
  rw [List.getD_eq_getElem _ _ (by simpa using h)]
  simp

theorem getD_zipWith {α β γ : Type} (f : α → β → γ) :
    ∀ (as : List α) (bs : List β) (i : ℕ), i < as.length → i < bs.length →
      ∀ (d : γ) (da : α) (db : β),
        (List.zipWith f as bs).getD i d = f (as.getD i da) (bs.getD i db)
  | [], _, i, h1, _, _, _, _ => absurd h1 (Nat.not_lt_zero i)
  | _ :: _, [], i, _, h2, _, _, _ => absurd h2 (Nat.not_lt_zero i)
  | a :: as, b :: bs, 0, _, _, d, da, db => rfl
  | a :: as, b :: bs, i + 1, h1, h2, d, da, db => by
    simpa using getD_zipWith f as bs i (by simpa using h1) (by simpa using h2) d da db

theorem getD_map_lt {α β : Type} (f : α → β) :
    ∀ (l : List α) (i : ℕ), i < l.length → ∀ (d : β) (d2 : α),
      (l.map f).getD i d = f (l.getD i d2)
  | [], i, h, _, _ => absurd h (Nat.not_lt_zero i)
  | a :: l, 0, _, d, d2 => rfl
  | a :: l, i + 1, h, d, d2 => by
    simpa using getD_map_lt f l i (by simpa using h) d d2

theorem dotL_nil_left (b : List ℚ) : dotL [] b = 0 := rfl

theorem dotL_nil_right (a : List ℚ) : dotL a [] = 0 := by
  simp [dotL]

theorem dotL_cons (x y : ℚ) (a b : List ℚ) :
    dotL (x :: a) (y :: b) = x * y + dotL a b := by
  simp [dotL]

theorem dotL_comm : ∀ (a b : List ℚ), dotL a b = dotL b a
  | [], b => by simp [dotL]
  | a, [] => by simp [dotL]
  | x :: a, y :: b => by
    rw [dotL_cons, dotL_cons, mul_comm, dotL_comm a b]

theorem dotL_eq_sum : ∀ (a b : List ℚ), a.length = b.length →
    dotL a b = ∑ i ∈ Finset.range a.length, a.getD i 0 * b.getD i 0
  | [], [], _ => by simp [dotL]
  | [], _ :: _, h => by simp at h
  | _ :: _, [], h => by simp at h
  | x :: a, y :: b, h => by
    rw [dotL_cons, dotL_eq_sum a b (by simpa using h)]
    rw [List.length_cons, Finset.sum_range_succ']
    simp [add_comm]

theorem dotL_self (a : List ℚ) : dotL a a = (a.map (fun v => v ^ 2)).sum := by
  induction a with
  | nil => simp [dotL]
  | cons x a ih => rw [dotL_cons, ih]; simp [sq]

theorem countP_range_getD (p : ℚ → Bool) :
    ∀ (l : List ℚ), (List.range l.length).countP (fun i => p (l.getD i 0)) = l.countP p
  | [] => rfl
  | x :: l => by
    rw [List.length_cons, List.range_succ_eq_map, List.countP_cons, List.countP_map]
    simp only [List.getD_cons_zero, List.getD_cons_succ, Function.comp_def]
    rw [countP_range_getD p l, List.countP_cons]

theorem c11_self (a : List ℚ) : c11 a a = count_nonzero a := by
  unfold c11 count_nonzero
  rw [← countP_range_getD (fun v => decide (v ≠ 0)) a]
  exact List.countP_congr (fun i _ => by simp)

theorem count_nonzero_pos {a : List ℚ} (hnz : ∃ v ∈ a, v ≠ 0) :
    0 < count_nonzero a := by
  refine List.countP_pos_iff.mpr ?_
  obtain ⟨v, hv, hv0⟩ := hnz
  exact ⟨v, hv, by simpa using hv0⟩

theorem countP_eq_card_filter_range (n : ℕ) (p : ℕ → Prop) [DecidablePred p] :
    (List.range n).countP (fun i => decide (p i)) = ((Finset.range n).filter p).card := by
  induction n with
  | zero => rfl
  | succ n ih =>
    rw [List.range_succ, List.countP_append, Finset.range_succ, Finset.filter_insert]
    by_cases hp : p n
    · rw [if_pos hp, Finset.card_insert_of_not_mem (by simp)]
      have h1 : List.countP (fun i => decide (p i)) [n] = 1 := by simp [hp]
      rw [h1, ih]
    · rw [if_neg hp]
      have h0 : List.countP (fun i => decide (p i)) [n] = 0 := by simp [hp]
      rw [h0, ih, Nat.add_zero]

theorem binary_sumsq : ∀ (a : List ℚ), (∀ v ∈ a, v = 0 ∨ v = 1) →
    (a.map (fun v => v ^ 2)).sum = (count_nonzero a : ℚ)
  | [], _ => by simp [count_nonzero]
  | x :: t, hbin => by
    have ht := binary_sumsq t (fun v hv => hbin v (List.mem_cons_of_mem x hv))
    rcases hbin x (List.mem_cons_self x t) with h0 | h1
    · subst h0
      have hcz : count_nonzero ((0 : ℚ) :: t) = count_nonzero t := by
        simp [count_nonzero, List.countP_cons]
      rw [List.map_cons, List.sum_cons, ht, hcz]
      ring
    · subst h1
      have hcz : count_nonzero ((1 : ℚ) :: t) = count_nonzero t + 1 := by
        simp [count_nonzero, List.countP_cons]
      rw [List.map_cons, List.sum_cons, ht, hcz]
      push_cast
      ring

/-- Bridge from the concrete value under the square root to the comparison
with the sentinel `100` made by `nearest_average_tanimoto`. -/
theorem euc_bit_lt_hundred {a b : List ℚ}
    (h : (count_nonzero a : ℝ) + (count_nonzero b : ℝ) - 2 * (c11 a b : ℝ) < 10000) :
    euc_bit a b < 100 := by
  unfold euc_bit
  exact (Real.sqrt_lt' (by norm_num)).mpr (by norm_num [h])

/-- Bridge in the other direction: a squared distance of at least `10000`
means the sentinel comparison `euc_bit < 100` is false. -/
theorem not_euc_bit_lt_hundred {a b : List ℚ}
    (h : (10000 : ℝ) ≤ (count_nonzero a : ℝ) + (count_nonzero b : ℝ) - 2 * (c11 a b : ℝ)) :
    ¬(euc_bit a b < 100) := by
  unfold euc_bit
  exact not_lt.mpr ((Real.le_sqrt' (by norm_num)).mpr (by norm_num [h]))

/-! ## Spec-side definitions (written from the spec's words, for refinement
claims; each is compared with the corresponding source-side definition). -/

/-- Spec-side count for C5: "the number of positions at which a and b agree on
a nonzero value", as a cardinality over index positions. -/
def c_spec (a b : List ℚ) : ℕ :=
  ((Finset.range a.length).filter
    (fun i => a.getD i 0 = b.getD i 0 ∧ a.getD i 0 ≠ 0)).card

/-- Spec-side modified Tanimoto for C4: `n_11 = dot(a,b)`, `n_00 = dot(1−a,1−b)`
written as indexed sums, `t_1 = 1` exactly when `n_00 == n` (else
`n_11/(n−n_00)`), `t_0 = 1` exactly when `n_11 == n` (else `n_00/(n−n_11)`),
`p = ((n−n_00)+n_11)/(2n)`, result `((2−p)/3)·t_1 + ((1+p)/3)·t_0`. -/
def mt_spec (a b : List ℚ) : ℚ :=
  let n : ℚ := (a.length : ℚ)
  let n_11 : ℚ := ∑ i ∈ Finset.range a.length, a.getD i 0 * b.getD i 0
  let n_00 : ℚ := ∑ i ∈ Finset.range a.length, (1 - a.getD i 0) * (1 - b.getD i 0)
  let t_1 : ℚ := if n_00 = n then 1 else n_11 / (n - n_00)
  let t_0 : ℚ := if n_11 = n then 1 else n_00 / (n - n_11)
  let p : ℚ := ((n - n_00) + n_11) / (2 * n)
  (((2 - p) / 3) * t_1) + (((1 + p) / 3) * t_0)

theorem c11_eq_c_spec (a b : List ℚ) : c11 a b = c_spec a b :=
  countP_eq_card_filter_range a.length
    (fun i => a.getD i 0 = b.getD i 0 ∧ a.getD i 0 ≠ 0)

/-! ## Claims -/

/-- C4: for all equal-length binary vectors `a`, `b`, `modified_tanimoto`
returns `((2−p)/3)·t_1 + ((1+p)/3)·t_0` with `n_11 = dot(a,b)`,
`n_00 = dot(1−a,1−b)`, the two `==`-guarded branches for `t_1`/`t_0` and the
Bernoulli probability `p`; in particular
`modified_tanimoto([1,1,1],[1,1,1]) == 1.0`. (The equation holds for all
equal-length rational vectors, in particular binary ones.) -/
theorem modified_tanimoto_formula :
    (∀ a b : List ℚ, a.length = b.length → modified_tanimoto a b = mt_spec a b) ∧
    modified_tanimoto [1, 1, 1] [1, 1, 1] = 1 := by
  constructor
  · intro a b h
    have h1 : dotL a b = ∑ i ∈ Finset.range a.length, a.getD i 0 * b.getD i 0 :=
      dotL_eq_sum a b h
    have h0 : dotL (a.map (fun v => 1 - v)) (b.map (fun v => 1 - v)) =
        ∑ i ∈ Finset.range a.length, (1 - a.getD i 0) * (1 - b.getD i 0) := by
      rw [dotL_eq_sum _ _ (by simp [h]), List.length_map]
      refine Finset.sum_congr rfl (fun i hi => ?_)
      rw [getD_map_lt _ a i (List.mem_range.mp hi) 0 0,
        getD_map_lt _ b i (by rw [← h]; exact List.mem_range.mp hi) 0 0]
    simp only [modified_tanimoto, mt_spec]
    rw [h1, h0]
  · norm_num [modified_tanimoto, dotL]

/-- Witness for C4 at a concrete input. -/
theorem modified_tanimoto_formula_witness :
    modified_tanimoto [1, 0] [0, 1] = mt_spec [1, 0] [0, 1] :=
  modified_tanimoto_formula.1 [1, 0] [0, 1] rfl

/-- C5: for all equal-length vectors, `euc_bit(a,b)` is
`sqrt(count_nonzero(a) + count_nonzero(b) − 2c)` and `bit_tanimoto(a,b)` is
`c / (count_nonzero(a) + count_nonzero(b) − c)`, with `c` the number of
positions at which `a` and `b` agree on a nonzero value (`c_spec`); in
particular `bit_tanimoto([1,1,0],[1,0,0]) = 0.5` and
`euc_bit([1,1,0],[1,0,0]) = 1.0`. -/
theorem euc_bit_bit_tanimoto_formula :
    (∀ a b : List ℚ, a.length = b.length →
      euc_bit a b =
        Real.sqrt ((count_nonzero a : ℝ) + (count_nonzero b : ℝ) - 2 * (c_spec a b : ℝ)) ∧
      bit_tanimoto a b =
        (c_spec a b : ℚ) / ((count_nonzero a : ℚ) + (count_nonzero b : ℚ) - (c_spec a b : ℚ))) ∧
    bit_tanimoto [1, 1, 0] [1, 0, 0] = 1 / 2 ∧
    euc_bit [1, 1, 0] [1, 0, 0] = 1 := by
  refine ⟨fun a b h => ?_, ?_, ?_⟩
  · rw [← c11_eq_c_spec]
    exact ⟨rfl, rfl⟩
  · norm_num [bit_tanimoto, show c11 [1, 1, 0] [1, 0, 0] = 1 from by decide,
      show count_nonzero [1, 1, 0] = 2 from by decide,
      show count_nonzero [1, 0, 0] = 1 from by decide]
  · have harg : (count_nonzero [(1 : ℚ), 1, 0] : ℝ) + (count_nonzero [(1 : ℚ), 0, 0] : ℝ) -
        2 * (c11 [1, 1, 0] [1, 0, 0] : ℝ) = 1 := by
      norm_num [show c11 [1, 1, 0] [1, 0, 0] = 1 from by decide,
        show count_nonzero [(1 : ℚ), 1, 0] = 2 from by decide,
        show count_nonzero [(1 : ℚ), 0, 0] = 1 from by decide]
    unfold euc_bit
    rw [harg, Real.sqrt_one]

/-- Witness for C5 at a concrete input. -/
theorem euc_bit_bit_tanimoto_formula_witness :
    euc_bit [1, 1] [1, 0] =
      Real.sqrt ((count_nonzero [(1 : ℚ), 1] : ℝ) + (count_nonzero [(1 : ℚ), 0] : ℝ) -
        2 * (c_spec [1, 1] [1, 0] : ℝ)) ∧
    bit_tanimoto [1, 1] [1, 0] =
      (c_spec [1, 1] [1, 0] : ℚ) / ((count_nonzero [(1 : ℚ), 1] : ℚ) +
        (count_nonzero [(1 : ℚ), 0] : ℚ) - (c_spec [1, 1] [1, 0] : ℚ)) :=
  euc_bit_bit_tanimoto_formula.1 [1, 1] [1, 0] rfl

/-- C7: `modified_tanimoto(a,b) == modified_tanimoto(b,a)` (symmetry; proved
for all equal-length rational vectors, in particular binary ones). -/
theorem modified_tanimoto_symm (a b : List ℚ) (h : a.length = b.length) :
    modified_tanimoto a b = modified_tanimoto b a := by
  simp only [modified_tanimoto]
  rw [dotL_comm a b, dotL_comm (a.map (fun v => 1 - v)) (b.map (fun v => 1 - v)), h]

/-- Witness for C7 at a concrete input. -/
theorem modified_tanimoto_symm_witness :
    modified_tanimoto [1, 1, 0] [0, 1, 1] = modified_tanimoto [0, 1, 1] [1, 1, 0] :=
  modified_tanimoto_symm [1, 1, 0] [0, 1, 1] rfl

/-- C8: for every nonzero binary vector `a`, `tanimoto(a,a) == 1` and
`bit_tanimoto(a,a) == 1`. -/
theorem tanimoto_self_one (a : List ℚ) (hbin : ∀ v ∈ a, v = 0 ∨ v = 1)
    (hnz : ∃ v ∈ a, v ≠ 0) :
    tanimoto a a = 1 ∧ bit_tanimoto a a = 1 := by
  have hS : (a.map (fun v => v ^ 2)).sum = (count_nonzero a : ℚ) := binary_sumsq a hbin
  have hpos : (0 : ℚ) < (count_nonzero a : ℚ) := by
    exact_mod_cast count_nonzero_pos hnz
  constructor
  · unfold tanimoto
    rw [dotL_self, hS,
      show (count_nonzero a : ℚ) + (count_nonzero a : ℚ) - (count_nonzero a : ℚ) =
        (count_nonzero a : ℚ) from by ring,
      div_self (ne_of_gt hpos)]
  · unfold bit_tanimoto
    rw [c11_self,
      show (count_nonzero a : ℚ) + (count_nonzero a : ℚ) - (count_nonzero a : ℚ) =
        (count_nonzero a : ℚ) from by ring,
      div_self (ne_of_gt hpos)]

/-- Witness for C8 at a concrete input. -/
theorem tanimoto_self_one_witness :
    tanimoto [1, 0, 1] [1, 0, 1] = 1 ∧ bit_tanimoto [1, 0, 1] [1, 0, 1] = 1 :=
  tanimoto_self_one [1, 0, 1] (by decide) (by decide)

/-- C3: for every feature matrix and every pair-metric function, the matrix
returned by `pairwise_similarity_bit` is N×N, symmetric (`M[i][j] == M[j][i]`),
and has diagonal exactly 1 for every row, regardless of the vectors' content:
the metric is universally quantified and never evaluated on a vector with
itself, the diagonal being produced by adding `np.identity`. -/
theorem pairwise_similarity_bit_shape (feature : List (List ℚ))
    (metric : List ℚ → List ℚ → ℚ) :
    (pairwise_similarity_bit feature metric).length = feature.length ∧
    (∀ i, i < feature.length →
      ((pairwise_similarity_bit feature metric).getD i []).length = feature.length) ∧
    (∀ i j, i < feature.length → j < feature.length →
      mEntry (pairwise_similarity_bit feature metric) i j =
        mEntry (pairwise_similarity_bit feature metric) j i) ∧
    (∀ i, i < feature.length → mEntry (pairwise_similarity_bit feature metric) i i = 1) := by
  have hsq_len : (squareform (pair_simi feature metric) feature.length).length =
      feature.length := by simp [squareform]
  have hid_len : (np_identity feature.length).length = feature.length := by
    simp [np_identity]
  have hrow : ∀ i, i < feature.length →
      (pairwise_similarity_bit feature metric).getD i [] =
        List.zipWith (· + ·)
          ((squareform (pair_simi feature metric) feature.length).getD i [])
          ((np_identity feature.length).getD i []) := by
    intro i hi
    unfold pairwise_similarity_bit matAdd
    exact getD_zipWith _ _ _ i (by rw [hsq_len]; exact hi) (by rw [hid_len]; exact hi) [] [] []
  have hsqrow : ∀ i, i < feature.length →
      (squareform (pair_simi feature metric) feature.length).getD i [] =
        (List.range feature.length).map (fun j =>
          if i < j then (pair_simi feature metric).getD (cIdx feature.length i j) 0
          else if j < i then (pair_simi feature metric).getD (cIdx feature.length j i) 0
          else 0) := by
    intro i hi
    unfold squareform
    exact getD_map_range _ [] hi
  have hidrow : ∀ i, i < feature.length →
      (np_identity feature.length).getD i [] =
        (List.range feature.length).map (fun j => if i = j then (1 : ℚ) else 0) := by
    intro i hi
    unfold np_identity
    exact getD_map_range _ [] hi
  have hEntry : ∀ i j, i < feature.length → j < feature.length →
      mEntry (pairwise_similarity_bit feature metric) i j =
        (if i < j then (pair_simi feature metric).getD (cIdx feature.length i j) 0
          else if j < i then (pair_simi feature metric).getD (cIdx feature.length j i) 0
          else 0) + (if i = j then 1 else 0) := by
    intro i j hi hj
    unfold mEntry
    rw [hrow i hi, hsqrow i hi, hidrow i hi,
      getD_zipWith _ _ _ j (by simpa using hj) (by simpa using hj) 0 0 0,
      getD_map_range _ 0 hj, getD_map_range _ 0 hj]
  refine ⟨?_, ?_, ?_, ?_⟩
  · simp [pairwise_similarity_bit, matAdd, List.length_zipWith, hsq_len, hid_len]
  · intro i hi
    rw [hrow i hi, List.length_zipWith, hsqrow i hi, hidrow i hi]
    simp
  · intro i j hi hj
    rw [hEntry i j hi hj, hEntry j i hj hi]
    rcases lt_trichotomy i j with h | h | h
    · rw [if_pos h, if_neg (lt_asymm h), if_pos h,
        if_neg (ne_of_lt h), if_neg (Ne.symm (ne_of_lt h))]
    · rw [h]
    · rw [if_neg (lt_asymm h), if_pos h, if_pos h,
        if_neg (Ne.symm (ne_of_lt h)), if_neg (ne_of_lt h)]
  · intro i hi
    rw [hEntry i i hi hi]
    simp

/-- Witness for C3 at a concrete input. -/
theorem pairwise_similarity_bit_shape_witness :
    (pairwise_similarity_bit [[1], [0]] bit_tanimoto).length = 2 ∧
    mEntry (pairwise_similarity_bit [[1], [0]] bit_tanimoto) 0 1 =
      mEntry (pairwise_similarity_bit [[1], [0]] bit_tanimoto) 1 0 ∧
    mEntry (pairwise_similarity_bit [[1], [0]] bit_tanimoto) 0 0 = 1 := by
  have h := pairwise_similarity_bit_shape [[1], [0]] bit_tanimoto
  exact ⟨h.1, h.2.2.1 0 1 (by decide) (by decide), h.2.2.2 0 (by decide)⟩

/-- C1 (refuted by the code): when `metric` is one of the built-in names (and
not claimed by the delegated backend), the source evaluates
`function_dict[metric](features)`, applying the two-parameter scalar metric to
a single argument; this raises `TypeError`, so the result is never the matrix
`pairwise_similarity_bit(features, metric_fn)`. -/
theorem compute_distance_matrix_builtin_typeError
    (pairwise_distances : List (List ℚ) → String → ℤ → Bool → List (List ℝ))
    (sklearn_supported_metrics : List String)
    (features : List (List ℚ)) (metric : String) (n_jobs : ℤ) (force_all_finite : Bool)
    (h1 : metric ∉ sklearn_supported_metrics) (h2 : metric ∈ built_in_metrics) :
    compute_distance_matrix pairwise_distances sklearn_supported_metrics
        features metric n_jobs force_all_finite =
      Except.error (PyError.typeError
        (metric ++ "() missing 1 required positional argument")) ∧
    ∀ M, compute_distance_matrix pairwise_distances sklearn_supported_metrics
        features metric n_jobs force_all_finite ≠ Except.ok M := by
  have he : compute_distance_matrix pairwise_distances sklearn_supported_metrics
      features metric n_jobs force_all_finite =
        Except.error (PyError.typeError
          (metric ++ "() missing 1 required positional argument")) := by
    unfold compute_distance_matrix
    rw [if_neg h1, if_pos h2]
  exact ⟨he, fun M h => by rw [he] at h; simp at h⟩

/-- Witness for C1's failing input: `metric="tanimoto"` on a 2×3 matrix. -/
theorem compute_distance_matrix_builtin_typeError_witness :
    compute_distance_matrix (fun _ _ _ _ => []) sklearn_supported_metrics_model
        [[1, 1, 0], [1, 0, 0]] "tanimoto" (-1) true =
      Except.error (PyError.typeError
        ("tanimoto" ++ "() missing 1 required positional argument")) :=
  (compute_distance_matrix_builtin_typeError _ _ _ _ _ _ (by decide) (by decide)).1

/-- C6: for every metric name in neither the delegated backend's supported set
nor the built-in set, `compute_distance_matrix` raises `ValueError` with a
message naming the unrecognized metric, and returns no matrix. -/
theorem compute_distance_matrix_unsupported
    (pairwise_distances : List (List ℚ) → String → ℤ → Bool → List (List ℝ))
    (sklearn_supported_metrics : List String)
    (features : List (List ℚ)) (metric : String) (n_jobs : ℤ) (force_all_finite : Bool)
    (h1 : metric ∉ sklearn_supported_metrics) (h2 : metric ∉ built_in_metrics) :
    compute_distance_matrix pairwise_distances sklearn_supported_metrics
        features metric n_jobs force_all_finite =
      Except.error (PyError.valueError
        ("Metric " ++ metric ++ " is not supported by the library.")) ∧
    ∀ M, compute_distance_matrix pairwise_distances sklearn_supported_metrics
        features metric n_jobs force_all_finite ≠ Except.ok M := by
  have he : compute_distance_matrix pairwise_distances sklearn_supported_metrics
      features metric n_jobs force_all_finite =
        Except.error (PyError.valueError
          ("Metric " ++ metric ++ " is not supported by the library.")) := by
    unfold compute_distance_matrix
    rw [if_neg h1, if_neg h2]
  exact ⟨he, fun M h => by rw [he] at h; simp at h⟩

/-- Witness for C6 at the spec's concrete scenario
(`metric="not_a_real_metric"`). -/
theorem compute_distance_matrix_unsupported_witness :
    compute_distance_matrix (fun _ _ _ _ => []) sklearn_supported_metrics_model
        [[1, 0], [0, 1]] "not_a_real_metric" (-1) true =
      Except.error (PyError.valueError
        ("Metric " ++ "not_a_real_metric" ++ " is not supported by the library.")) :=
  (compute_distance_matrix_unsupported _ _ _ _ _ _ (by decide) (by decide)).1

/-- C9 (refuted by the code): with `len(a) < len(b)`, `euc_bit` proceeds and
returns a value instead of failing fast: `euc_bit([1], [1,1])` returns `1.0`. -/
theorem shape_mismatch_counterexample : euc_bit_run [1] [1, 1] = Except.ok 1 := by
  have harg : (count_nonzero [(1 : ℚ)] : ℝ) + (count_nonzero [(1 : ℚ), 1] : ℝ) -
      2 * (c11 [1] [1, 1] : ℝ) = 1 := by
    norm_num [show c11 [1] [1, 1] = 1 from by decide,
      show count_nonzero [(1 : ℚ)] = 1 from by decide,
      show count_nonzero [(1 : ℚ), 1] = 2 from by decide]
  unfold euc_bit_run
  rw [if_pos (by decide)]
  unfold euc_bit
  rw [harg, Real.sqrt_one]

/-- C9 (amended): the operations perform no shape validation. When
`len(a) ≤ len(b)` the bit metrics proceed and return a result (no error); when
`len(a) > len(b)` the element access `b[idx]` fails with an `IndexError` (not a
descriptive shape error); and a feature matrix with a single row is accepted by
`pairwise_similarity_bit`, which returns the 1×1 matrix `[[1]]`. -/
theorem shape_mismatch_behavior :
    (∀ a b : List ℚ, a.length ≤ b.length → ∃ r, euc_bit_run a b = Except.ok r) ∧
    (∀ a b : List ℚ, b.length < a.length →
      euc_bit_run a b = Except.error (PyError.indexError "index out of bounds")) ∧
    (∀ (v : List ℚ) (metric : List ℚ → List ℚ → ℚ),
      pairwise_similarity_bit [v] metric = [[1]]) := by
  refine ⟨fun a b h => ⟨euc_bit a b, ?_⟩, fun a b h => ?_, fun v metric => ?_⟩
  · unfold euc_bit_run
    rw [if_pos h]
  · unfold euc_bit_run
    rw [if_neg (not_le.mpr h)]
  · norm_num [pairwise_similarity_bit, matAdd, squareform, np_identity, pair_simi,
      pyRange2, show List.range 1 = [0] from rfl]

/-- Witness for C9's amended statement at concrete inputs. -/
theorem shape_mismatch_behavior_witness :
    (∃ r, euc_bit_run [1] [1, 1] = Except.ok r) ∧
    euc_bit_run [1, 1] [1] = Except.error (PyError.indexError "index out of bounds") :=
  ⟨shape_mismatch_behavior.1 [1] [1, 1] (by decide),
    shape_mismatch_behavior.2.1 [1, 1] [1] (by decide)⟩

theorem natStep_pos {x : List (List ℚ)} {idx : ℕ} {s : NatState} {jdx : ℕ}
    (h : euc_bit (row x idx) (row x jdx) < s.short ∧ idx ≠ jdx) :
    natStep x idx s jdx = ⟨euc_bit (row x idx) (row x jdx), idx, jdx⟩ :=
  if_pos h

theorem natStep_neg {x : List (List ℚ)} {idx : ℕ} {s : NatState} {jdx : ℕ}
    (h : ¬(euc_bit (row x idx) (row x jdx) < s.short ∧ idx ≠ jdx)) :
    natStep x idx s jdx = s :=
  if_neg h

/-- Characterization of the inner loop of `nearest_average_tanimoto` after
scanning the indices `0, …, m-1`: either no index was eligible (distance below
the running sentinel `100` and different from `idx`) and the state still holds
the seed `⟨100, 0, 0⟩`, or the state records `a = idx` and `b` the first-found
index attaining the minimum distance among all eligible indices scanned. -/
theorem natFold_spec (x : List (List ℚ)) (idx : ℕ) : ∀ m : ℕ,
    ((∀ j, j < m → ¬(euc_bit (row x idx) (row x j) < 100 ∧ idx ≠ j)) ∧
      (List.range m).foldl (natStep x idx) ⟨100, 0, 0⟩ = ⟨100, 0, 0⟩) ∨
    (∃ s : NatState, (List.range m).foldl (natStep x idx) ⟨100, 0, 0⟩ = s ∧
      s.a = idx ∧ s.b < m ∧ idx ≠ s.b ∧
      s.short = euc_bit (row x idx) (row x s.b) ∧
      euc_bit (row x idx) (row x s.b) < 100 ∧
      (∀ k, k < m → idx ≠ k →
        euc_bit (row x idx) (row x s.b) ≤ euc_bit (row x idx) (row x k)) ∧
      (∀ k, k < s.b → idx ≠ k →
        euc_bit (row x idx) (row x s.b) < euc_bit (row x idx) (row x k)))
  | 0 => Or.inl ⟨fun j hj => absurd hj (Nat.not_lt_zero j), by simp⟩
  | m + 1 => by
    have hfold : (List.range (m + 1)).foldl (natStep x idx) ⟨100, 0, 0⟩ =
        natStep x idx ((List.range m).foldl (natStep x idx) ⟨100, 0, 0⟩) m := by
      rw [List.range_succ, List.foldl_append, List.foldl_cons, List.foldl_nil]
    rcases natFold_spec x idx m with ⟨hA, hEq⟩ |
      ⟨s, hEq, ha, hbm, hne, hshort, hlt, hmin, hstrict⟩
    · by_cases hc : euc_bit (row x idx) (row x m) < 100 ∧ idx ≠ m
      · have hge : ∀ k, k < m → idx ≠ k →
            (100 : ℝ) ≤ euc_bit (row x idx) (row x k) := by
          intro k hk hik
          exact not_lt.mp (fun hlt2 => hA k hk ⟨hlt2, hik⟩)
        refine Or.inr ⟨⟨euc_bit (row x idx) (row x m), idx, m⟩, ?_,
          rfl, Nat.lt_succ_self m, hc.2, rfl, hc.1, ?_, ?_⟩
        · rw [hfold, hEq, natStep_pos ⟨hc.1, hc.2⟩]
        · intro k hk hik
          rcases Nat.lt_succ_iff_lt_or_eq.mp hk with hk2 | rfl
          · exact le_of_lt (lt_of_lt_of_le hc.1 (hge k hk2 hik))
          · exact le_refl _
        · intro k hk hik
          exact lt_of_lt_of_le hc.1 (hge k hk hik)
      · refine Or.inl ⟨?_, ?_⟩
        · intro j hj
          rcases Nat.lt_succ_iff_lt_or_eq.mp hj with hj2 | rfl
          · exact hA j hj2
          · exact hc
        · rw [hfold, hEq, natStep_neg hc]
    · by_cases hc : euc_bit (row x idx) (row x m) < s.short ∧ idx ≠ m
      · have hcm : euc_bit (row x idx) (row x m) < euc_bit (row x idx) (row x s.b) := by
          rw [← hshort]; exact hc.1
        refine Or.inr ⟨⟨euc_bit (row x idx) (row x m), idx, m⟩, ?_,
          rfl, Nat.lt_succ_self m, hc.2, rfl, lt_trans hcm hlt, ?_, ?_⟩
        · rw [hfold, hEq, natStep_pos hc]
        · intro k hk hik
          rcases Nat.lt_succ_iff_lt_or_eq.mp hk with hk2 | rfl
          · exact le_of_lt (lt_of_lt_of_le hcm (hmin k hk2 hik))
          · exact le_refl _
        · intro k hk hik
          exact lt_of_lt_of_le hcm (hmin k hk hik)
      · refine Or.inr ⟨s, ?_, ha, Nat.lt_succ_of_lt hbm, hne, hshort, hlt, ?_, hstrict⟩
        · rw [hfold, hEq, natStep_neg hc]
        · intro k hk hik
          rcases Nat.lt_succ_iff_lt_or_eq.mp hk with hk2 | rfl
          · exact hmin k hk2 hik
          · have hnlt : ¬(euc_bit (row x idx) (row x k) < s.short) :=
              fun hlt2 => hc ⟨hlt2, hik⟩
            rw [hshort] at hnlt
            exact not_lt.mp hnlt

/-- C2: whenever every row has some other row within `euc_bit` distance `100`
(so the sentinel seed never survives the scan), `nearest_average_tanimoto`
pairs each vector `i` with its nearest other vector `nb i` under `euc_bit` —
strict less-than comparison, ties keeping the first-found neighbor in
enumeration order — and returns the arithmetic mean of `bit_tanimoto` over the
nearest pairs. -/
theorem nearest_average_tanimoto_spec (x : List (List ℚ))
    (H : ∀ i, i < x.length → ∃ j, j < x.length ∧ j ≠ i ∧
      euc_bit (row x i) (row x j) < 100) :
    ∃ nb : ℕ → ℕ,
      (∀ i, i < x.length → nb i < x.length ∧ nb i ≠ i ∧
        (∀ k, k < x.length → k ≠ i →
          euc_bit (row x i) (row x (nb i)) ≤ euc_bit (row x i) (row x k)) ∧
        (∀ k, k < nb i → k ≠ i →
          euc_bit (row x i) (row x (nb i)) < euc_bit (row x i) (row x k))) ∧
      nearest_average_tanimoto x =
        ((List.range x.length).map
          (fun i => bit_tanimoto (row x i) (row x (nb i)))).sum /
          (x.length : ℚ) := by
  have key : ∀ i, i < x.length →
      (natInner x i).a = i ∧ (natInner x i).b < x.length ∧ (natInner x i).b ≠ i ∧
      (∀ k, k < x.length → k ≠ i →
        euc_bit (row x i) (row x ((natInner x i).b)) ≤ euc_bit (row x i) (row x k)) ∧
      (∀ k, k < (natInner x i).b → k ≠ i →
        euc_bit (row x i) (row x ((natInner x i).b)) < euc_bit (row x i) (row x k)) := by
    intro i hi
    rcases natFold_spec x i x.length with ⟨hA, _⟩ |
      ⟨s, hEq, ha, hbm, hne, _, _, hmin, hstrict⟩
    · obtain ⟨j, hj, hji, hdj⟩ := H i hi
      exact absurd ⟨hdj, Ne.symm hji⟩ (hA j hj)
    · have hI : natInner x i = s := hEq
      rw [hI]
      exact ⟨ha, hbm, Ne.symm hne, fun k hk hki => hmin k hk (Ne.symm hki),
        fun k hk hki => hstrict k hk (Ne.symm hki)⟩
  refine ⟨fun i => (natInner x i).b, fun i hi => ?_, ?_⟩
  · obtain ⟨_, h1, h2, h3, h4⟩ := key i hi
    exact ⟨h1, h2, h3, h4⟩
  · unfold nearest_average_tanimoto
    simp only [List.length_map, List.length_range]
    have hmap : (List.range x.length).map (natContrib x) =
        (List.range x.length).map
          (fun i => bit_tanimoto (row x i) (row x ((natInner x i).b))) := by
      refine List.map_congr_left (fun i hi => ?_)
      have hi2 := List.mem_range.mp hi
      unfold natContrib
      rw [(key i hi2).1]
    rw [hmap]

/-- C10: if no other vector lies within `euc_bit` distance `100` of vector `i`,
the inner loop of `nearest_average_tanimoto` never fires, the indices `a` and
`b` keep their initial value `0`, and the contribution accumulated for `i` is
`bit_tanimoto(x[0], x[0])` — not a Tanimoto value for any pair involving `i`. -/
theorem natContrib_sentinel (x : List (List ℚ)) (i : ℕ) (_hi : i < x.length)
    (H : ∀ j, j < x.length → j ≠ i → ¬(euc_bit (row x i) (row x j) < 100)) :
    (natInner x i).a = 0 ∧ (natInner x i).b = 0 ∧
      natContrib x i = bit_tanimoto (row x 0) (row x 0) := by
  rcases natFold_spec x i x.length with ⟨_, hEq⟩ |
    ⟨s, hEq, _, hbm, hne, _, hlt, _, _⟩
  · have hI : natInner x i = ⟨100, 0, 0⟩ := hEq
    refine ⟨by rw [hI], by rw [hI], ?_⟩
    unfold natContrib
    rw [hI]
  · exact absurd hlt (H s.b hbm (Ne.symm hne))

theorem count_nonzero_replicate_one (n : ℕ) :
    count_nonzero (List.replicate n (1 : ℚ)) = n := by
  induction n with
  | zero => rfl
  | succ n ih =>
    rw [List.replicate_succ]
    unfold count_nonzero at ih ⊢
    rw [List.countP_cons, ih]
    simp

theorem count_nonzero_replicate_zero (n : ℕ) :
    count_nonzero (List.replicate n (0 : ℚ)) = 0 := by
  unfold count_nonzero
  rw [List.countP_eq_zero.mpr]
  intro a ha
  rw [List.eq_of_mem_replicate ha]
  simp

theorem c11_replicate_one_zero (n : ℕ) :
    c11 (List.replicate n (1 : ℚ)) (List.replicate n (0 : ℚ)) = 0 := by
  unfold c11
  rw [List.countP_eq_zero.mpr]
  intro i hi
  have hin : i < n := by simpa using List.mem_range.mp hi
  have h1 : (List.replicate n (1 : ℚ)).getD i 0 = 1 := by
    rw [List.getD_eq_getElem _ _ (by simpa using hin)]
    simp
  have h0 : (List.replicate n (0 : ℚ)).getD i 0 = 0 := by
    rw [List.getD_eq_getElem _ _ (by simpa using hin)]
    simp
  simp [h1, h0]

/-- Witness for C10: two rows of length 10000 — all-ones and all-zeros — are at
`euc_bit` distance exactly `sqrt(10000) = 100`, which is not `< 100`, so for
row 0 the loop never fires. -/
theorem natContrib_sentinel_witness :
    (natInner [List.replicate 10000 (1 : ℚ), List.replicate 10000 (0 : ℚ)] 0).a = 0 ∧
    (natInner [List.replicate 10000 (1 : ℚ), List.replicate 10000 (0 : ℚ)] 0).b = 0 ∧
    natContrib [List.replicate 10000 (1 : ℚ), List.replicate 10000 (0 : ℚ)] 0 =
      bit_tanimoto (row [List.replicate 10000 (1 : ℚ), List.replicate 10000 (0 : ℚ)] 0)
        (row [List.replicate 10000 (1 : ℚ), List.replicate 10000 (0 : ℚ)] 0) := by
  refine natContrib_sentinel _ 0 (by norm_num) ?_
  intro j hj hj0
  have hj2 : j < 2 := by
    rw [show ([List.replicate 10000 (1 : ℚ), List.replicate 10000 (0 : ℚ)]).length = 2
      from rfl] at hj
    exact hj
  have hj1 : j = 1 := by omega
  subst hj1
  have hr0 : row [List.replicate 10000 (1 : ℚ), List.replicate 10000 (0 : ℚ)] 0 =
      List.replicate 10000 (1 : ℚ) := rfl
  have hr1 : row [List.replicate 10000 (1 : ℚ), List.replicate 10000 (0 : ℚ)] 1 =
      List.replicate 10000 (0 : ℚ) := rfl
  rw [hr0, hr1]
  refine not_euc_bit_lt_hundred ?_
  rw [count_nonzero_replicate_one, count_nonzero_replicate_zero, c11_replicate_one_zero]
  norm_num

/-- Concrete 3×3 matrix used as witness input for C2 (the spec's scenario 3). -/
def xDemo : List (List ℚ) :=
  [[1, 0, 0], [1, 1, 0], [0, 0, 1]]

/-- Witness for C2 at the spec's concrete scenario 3. -/
theorem nearest_average_tanimoto_spec_witness :
    ∃ nb : ℕ → ℕ,
      (∀ i, i < xDemo.length → nb i < xDemo.length ∧ nb i ≠ i ∧
        (∀ k, k < xDemo.length → k ≠ i →
          euc_bit (row xDemo i) (row xDemo (nb i)) ≤ euc_bit (row xDemo i) (row xDemo k)) ∧
        (∀ k, k < nb i → k ≠ i →
          euc_bit (row xDemo i) (row xDemo (nb i)) < euc_bit (row xDemo i) (row xDemo k))) ∧
      nearest_average_tanimoto xDemo =
        ((List.range xDemo.length).map
          (fun i => bit_tanimoto (row xDemo i) (row xDemo (nb i)))).sum /
          (xDemo.length : ℚ) := by
  refine nearest_average_tanimoto_spec xDemo ?_
  intro i hi
  have hi3 : i < 3 := by simpa [xDemo] using hi
  interval_cases i
  · refine ⟨1, by simp [xDemo], by norm_num, ?_⟩
    have e0 : row xDemo 0 = [(1 : ℚ), 0, 0] := rfl
    have e1 : row xDemo 1 = [(1 : ℚ), 1, 0] := rfl
    rw [e0, e1]
    refine euc_bit_lt_hundred ?_
    norm_num [show c11 [(1 : ℚ), 0, 0] [(1 : ℚ), 1, 0] = 1 from by decide,
      show count_nonzero [(1 : ℚ), 0, 0] = 1 from by decide,
      show count_nonzero [(1 : ℚ), 1, 0] = 2 from by decide]
  · refine ⟨0, by simp [xDemo], by norm_num, ?_⟩
    have e0 : row xDemo 0 = [(1 : ℚ), 0, 0] := rfl
    have e1 : row xDemo 1 = [(1 : ℚ), 1, 0] := rfl
    rw [e0, e1]
    refine euc_bit_lt_hundred ?_
    norm_num [show c11 [(1 : ℚ), 1, 0] [(1 : ℚ), 0, 0] = 1 from by decide,
      show count_nonzero [(1 : ℚ), 0, 0] = 1 from by decide,
      show count_nonzero [(1 : ℚ), 1, 0] = 2 from by decide]
  · refine ⟨0, by simp [xDemo], by norm_num, ?_⟩
    have e0 : row xDemo 0 = [(1 : ℚ), 0, 0] := rfl
    have e2 : row xDemo 2 = [(0 : ℚ), 0, 1] := rfl
    rw [e0, e2]
    refine euc_bit_lt_hundred ?_
    norm_num [show c11 [(0 : ℚ), 0, 1] [(1 : ℚ), 0, 0] = 0 from by decide,
      show count_nonzero [(1 : ℚ), 0, 0] = 1 from by decide,
      show count_nonzero [(0 : ℚ), 0, 1] = 1 from by decide]

end DiverseSelector
